import Mathlib

/-!
Verification of the topology-planning core and the concrete deployment
topology of the cdk-monorepo repository.

The repository declares two variants of a `MonorepoStack` (the file
`lib/monorepo-stack.ts` and the variant in the unnamed source part):
a fixed, hand-written collection of cloud resources wired together by
construct references.  The specification describes, at design level, the
minimal infrastructure-topology compiler implied by that material: a
resource-node data model, a dependency-graph builder, a cycle-detecting
topological sorter, and a plan emitter.  The planning core itself is not
part of the repository's sources, so its definitions below are modelled
from the specification text; the concrete node sets are translated from
the two stack constructors in the sources.
-/

/-- A property value of a resource node.  `lit` is a literal string,
`ref target output` is a reference to another node's named output, and
`refSeq` is a composite value holding a sequence of references
(for example a distribution depending on several origins). -/
inductive PropValue where
  | lit : String → PropValue
  | ref : String → String → PropValue
  | refSeq : List (String × String) → PropValue
deriving DecidableEq, Repr

/-- The enumerated type tags of the resources declared by the stacks. -/
inductive ResourceKind where
  | bucket
  | bucketDeployment
  | hostedZone
  | certificate
  | originAccessIdentity
  | distribution
  | aliasRecord
  | lambdaFunction
  | restApi
  | apiMethod
  | apiKey
  | secret
  | table
  | cfnOutput
deriving DecidableEq, Repr

/-- One declared infrastructure unit: an id unique within the graph, an
enumerated kind tag, and a property bag whose values may reference other
nodes. -/
structure ResourceNode where
  id : String
  kind : ResourceKind
  properties : List (String × PropValue)
deriving DecidableEq, Repr

/-- The reference targets occurring in one property value. -/
def refTargets : PropValue → List String
  | .lit _ => []
  | .ref t _ => [t]
  | .refSeq rs => rs.map Prod.fst

/-- All node ids referenced from the property bag of a node. -/
def nodeRefs (n : ResourceNode) : List String :=
  (n.properties.map (fun p => refTargets p.2)).flatten

/-- Modelled from the spec: the error kinds of the planning core, which is
not part of the repository's sources.  `duplicateId` aborts registration,
`cyclicDependency` carries the offending cycle path, and
`unresolvedReference` carries the referencing node and the missing target. -/
inductive PlanError where
  | duplicateId : String → PlanError
  | cyclicDependency : List String → PlanError
  | unresolvedReference : String → String → PlanError
deriving DecidableEq, Repr

/-- Modelled from the spec: the dependency graph owns the full set of
resource nodes; the edge set is derived from property scans. -/
structure DependencyGraph where
  nodes : List ResourceNode
deriving DecidableEq, Repr

/-- The ids of the registered nodes, in declaration order. -/
def DependencyGraph.ids (g : DependencyGraph) : List String :=
  g.nodes.map (fun n => n.id)

/-- Modelled from the spec: `addNode` registers a node and fails with
`DuplicateIdError` on an id collision, leaving the graph unchanged. -/
def addNode (g : DependencyGraph) (n : ResourceNode) :
    Except PlanError DependencyGraph :=
  if n.id ∈ g.ids then .error (.duplicateId n.id)
  else .ok ⟨g.nodes ++ [n]⟩

/-- Modelled from the spec: the graph builder registers the declared
nodes one by one, starting from the empty graph. -/
def buildGraphAux (g : DependencyGraph) :
    List ResourceNode → Except PlanError DependencyGraph
  | [] => .ok g
  | n :: ns => do
    let g' ← addNode g n
    buildGraphAux g' ns

/-- Modelled from the spec: build the dependency graph from the declared
node list. -/
def buildGraph (ns : List ResourceNode) : Except PlanError DependencyGraph :=
  buildGraphAux ⟨[]⟩ ns

/-- Modelled from the spec: checking the reference targets of one node;
a reference to an unregistered id fails with `UnresolvedReferenceError`. -/
def checkRefs (ids : List String) (src : String) :
    List String → Except PlanError (List (String × String))
  | [] => .ok []
  | t :: ts =>
    if t ∈ ids then do
      let rest ← checkRefs ids src ts
      .ok ((src, t) :: rest)
    else .error (.unresolvedReference src t)

/-- Modelled from the spec: scanning every node's properties for
references, producing the derived edge set. -/
def resolveEdgesAux (ids : List String) :
    List ResourceNode → Except PlanError (List (String × String))
  | [] => .ok []
  | n :: ns => do
    let es ← checkRefs ids n.id (nodeRefs n)
    let rest ← resolveEdgesAux ids ns
    .ok (es ++ rest)

/-- Modelled from the spec: `resolveEdges` scans every node's properties
for reference values and produces the edge set `(from, to)` meaning
"from depends on to"; it fails with `UnresolvedReferenceError` when a
reference points to a nonexistent node. -/
def resolveEdges (g : DependencyGraph) :
    Except PlanError (List (String × String)) :=
  resolveEdgesAux g.ids g.nodes

/-- The dependencies of a node: all targets of edges leaving it. -/
def deps (edges : List (String × String)) (n : String) : List String :=
  (edges.filter (fun e => e.1 == n)).map Prod.snd

/-- The cycle path reported when the depth-first traversal meets the
in-progress node `n` again: the portion of the gray stack from `n`
back to the current node, closed up with `n` itself. -/
def cycleFrom (gray : List String) (n : String) : List String :=
  (gray.takeWhile (fun x => x != n) ++ [n]).reverse ++ [n]

/-- Modelled from the spec: the sequential visit of a list of nodes by the
depth-first traversal, threading the list of finished (black) nodes; the
visitor for a single node is passed as `f`. -/
def visitDeps
    (f : List String → String → Option (Except PlanError (List String))) :
    (black : List String) → (ds : List String) →
    Option (Except PlanError (List String))
  | black, [] => some (.ok black)
  | black, d :: ds =>
    match f black d with
    | none => none
    | some (.error e) => some (.error e)
    | some (.ok black') => visitDeps f black' ds

/-- Modelled from the spec: the depth-first visit of one node with
three-color marking.  `gray` is the in-progress stack (most recent
first), `black` the finished nodes in emission order.  A finished node
returns at once; an in-progress node signals `CyclicDependencyError`
with the full cycle path; otherwise the node's dependencies are visited
first and the node is appended after them.  `fuel` bounds the recursion
depth and is never exhausted when the edge targets are registered ids. -/
def visitNode (edges : List (String × String)) :
    (fuel : Nat) → (gray black : List String) → (n : String) →
    Option (Except PlanError (List String))
  | 0, _, _, _ => none
  | fuel + 1, gray, black, n =>
    if n ∈ black then some (.ok black)
    else if n ∈ gray then
      some (.error (.cyclicDependency (cycleFrom gray n)))
    else
      match visitDeps (fun b d => visitNode edges fuel (n :: gray) b d)
          black (deps edges n) with
      | none => none
      | some (.error e) => some (.error e)
      | some (.ok black') => some (.ok (black' ++ [n]))

/-- Modelled from the spec: the cycle detector / topological sorter.
It runs the depth-first traversal over the declared nodes in declaration
order and produces a linear order in which every dependency precedes its
dependents, or a `CyclicDependencyError`. -/
def topoSort (ids : List String) (edges : List (String × String)) :
    Except PlanError (List String) :=
  match visitDeps (fun b d => visitNode edges (ids.length + 1) [] b d)
      [] ids with
  | none => .error (.cyclicDependency [])
  | some r => r

deriving instance DecidableEq for Except

/-- A resolved property value handed to the provisioning backend: every
reference has been substituted with the referenced node's output value. -/
inductive ResolvedValue where
  | str : String → ResolvedValue
  | strs : List String → ResolvedValue
deriving DecidableEq, Repr

/-- Modelled from the spec: the operation tag of a provisioning
operation. -/
inductive OperationTag where
  | create
  | update
  | delete
deriving DecidableEq, Repr

/-- Modelled from the spec: one emitted provisioning operation. -/
structure ProvisionOperation where
  operation : OperationTag
  nodeId : String
  kind : ResourceKind
  resolvedProperties : List (String × ResolvedValue)
deriving DecidableEq, Repr

/-- Modelled from the spec: resolving one property value at emission
time.  References to nodes not yet provisioned fail with the defensive
`UnresolvedReferenceError`; `outs` is the backend's output assignment
(node id and output name to value). -/
def resolveValue (outs : String → String → String)
    (provisioned : List String) (src : String) :
    PropValue → Except PlanError ResolvedValue
  | .lit s => .ok (.str s)
  | .ref t o =>
    if t ∈ provisioned then .ok (.str (outs t o))
    else .error (.unresolvedReference src t)
  | .refSeq rs =>
    if ∀ r ∈ rs, r.1 ∈ provisioned then
      .ok (.strs (rs.map (fun r => outs r.1 r.2)))
    else .error (.unresolvedReference src (String.join (rs.map Prod.fst)))

/-- Modelled from the spec: resolving a whole property bag at emission
time. -/
def resolveProps (outs : String → String → String)
    (provisioned : List String) (src : String) :
    List (String × PropValue) →
    Except PlanError (List (String × ResolvedValue))
  | [] => .ok []
  | (k, v) :: rest => do
    let rv ← resolveValue outs provisioned src v
    let rs ← resolveProps outs provisioned src rest
    .ok ((k, rv) :: rs)

/-- Look up a registered node by id. -/
def findNode (g : DependencyGraph) (nid : String) : Option ResourceNode :=
  g.nodes.find? (fun n => n.id == nid)

/-- Modelled from the spec: the plan emitter walks the sorted node list
and emits one Create `ProvisionOperation` per node, tracking the set of
already provisioned nodes so that references resolve to outputs produced
earlier in the order. -/
def emitPlanAux (outs : String → String → String) (g : DependencyGraph) :
    (provisioned : List String) → List String →
    Except PlanError (List ProvisionOperation)
  | _, [] => .ok []
  | provisioned, nid :: rest =>
    match findNode g nid with
    | none => .error (.unresolvedReference nid nid)
    | some n => do
      let rps ← resolveProps outs provisioned nid n.properties
      let ops ← emitPlanAux outs g (provisioned ++ [nid]) rest
      .ok (⟨.create, nid, n.kind, rps⟩ :: ops)

/-- Modelled from the spec: the full planning pipeline — graph
construction, edge resolution, topological sort, plan emission — as a
pure function from the declared node list (and the backend's output
assignment) to an ordered provisioning plan. -/
def buildPlan (outs : String → String → String) (ns : List ResourceNode) :
    Except PlanError (List ProvisionOperation) := do
  let g ← buildGraph ns
  let edges ← resolveEdges g
  let order ← topoSort g.ids edges
  emitPlanAux outs g [] order

/-- Modelled from the spec: what the core reports for one node of the
sorted order during execution by the backend: either a Create operation
was emitted for the node, or the node was skipped with a
`DependencyFailedError` because a prerequisite failed. -/
inductive ExecReport where
  | create : String → ExecReport
  | dependencyFailed : String → ExecReport
deriving DecidableEq, Repr

/-- Modelled from the spec: the execution phase.  Walking the sorted
order, a node with a failed prerequisite is skipped and reported with
`DependencyFailedError`; otherwise its Create operation is emitted, and
the backend's verdict `bf` (true = provisioning failed) decides whether
the node joins the failed set.  The first component of the result is the
final failed set, the second the per-node reports in order. -/
def execRun (edges : List (String × String)) (bf : String → Bool) :
    (failed : List String) → (order : List String) →
    List String × List ExecReport
  | failed, [] => (failed, [])
  | failed, x :: rest =>
    if ∃ d ∈ deps edges x, d ∈ failed then
      let r := execRun edges bf (x :: failed) rest
      (r.1, .dependencyFailed x :: r.2)
    else if bf x then
      let r := execRun edges bf (x :: failed) rest
      (r.1, .create x :: r.2)
    else
      let r := execRun edges bf failed rest
      (r.1, .create x :: r.2)

/-- Modelled from the spec: the reports of a whole run over a sorted
order, starting with no failures. -/
def execute (edges : List (String × String)) (bf : String → Bool)
    (order : List String) : List ExecReport :=
  (execRun edges bf [] order).2

/-- The configuration values consumed by the stack constructors
(`ServiceProperties` in both source variants). -/
structure ServiceProperties where
  domainName : String
  hostedZoneId : String
  certArnUsEast1 : String
deriving DecidableEq, Repr

/-- The ambient environment drawn from process environment variables by
the entry point (`CDK_DEFAULT_ACCOUNT`, `CDK_DEFAULT_REGION`). -/
structure StackEnv where
  account : String
  region : String
deriving DecidableEq, Repr

/-- The resource nodes declared by the `MonorepoStack` constructor of
`lib/monorepo-stack.ts`, in source declaration order: bucket, hosted
zone, imported certificate, origin access identity, distribution, alias
record, bucket deployment, one lambda, REST API, the root GET method
with the lambda integration, and the bucket-domain output. -/
def libStackNodes (stackId : String) (p : ServiceProperties) :
    List ResourceNode :=
  [⟨"UiBucket", .bucket,
    [("bucketName", .lit "d2c-cdk-workshop-monorepo-ui-malte"),
     ("removalPolicy", .lit "DESTROY"),
     ("autoDeleteObjects", .lit "true"),
     ("blockPublicAccess", .lit "false"),
     ("websiteIndexDocument", .lit "index.html"),
     ("websiteErrorDocument", .lit "index.html"),
     ("publicReadAccess", .lit "true")]⟩,
   ⟨"HostedZone", .hostedZone,
    [("zoneName", .lit p.domainName),
     ("hostedZoneId", .lit p.hostedZoneId)]⟩,
   ⟨"CertificateImportedFromUsEast1", .certificate,
    [("certificateArn", .lit p.certArnUsEast1)]⟩,
   ⟨"cloudfront-OAI", .originAccessIdentity,
    [("comment", .lit ("OAI for " ++ stackId))]⟩,
   ⟨"SiteDistribution", .distribution,
    [("certificate", .ref "CertificateImportedFromUsEast1" "certificateArn"),
     ("defaultRootObject", .lit "index.html"),
     ("domainNames", .lit p.domainName),
     ("minimumProtocolVersion", .lit "TLS_V1_2_2021"),
     ("errorResponsePagePath", .lit "/error.html"),
     ("defaultBehaviorOrigin",
      .refSeq [("UiBucket", "bucketRegionalDomainName"),
               ("cloudfront-OAI", "originAccessIdentityId")]),
     ("viewerProtocolPolicy", .lit "REDIRECT_TO_HTTPS")]⟩,
   ⟨"SiteAliasRecord", .aliasRecord,
    [("recordName", .lit p.domainName),
     ("target", .ref "SiteDistribution" "distributionDomainName"),
     ("zone", .ref "HostedZone" "hostedZoneId")]⟩,
   ⟨"UiDeployment", .bucketDeployment,
    [("destinationBucket", .ref "UiBucket" "bucketName"),
     ("sources", .lit "./ui")]⟩,
   ⟨"TestFunction", .lambdaFunction,
    [("architecture", .lit "ARM_64"),
     ("runtime", .lit "NODEJS_18_X"),
     ("memorySize", .lit "512"),
     ("code", .lit "./service"),
     ("handler", .lit "index.test")]⟩,
   ⟨"RestApi", .restApi, []⟩,
   ⟨"RestApiRootGET", .apiMethod,
    [("api", .ref "RestApi" "restApiId"),
     ("httpMethod", .lit "GET"),
     ("integration", .ref "TestFunction" "functionArn"),
     ("proxy", .lit "true")]⟩,
   ⟨"UiBucketDomainOutput", .cfnOutput,
    [("exportName", .lit "ui-bucket:domain-name"),
     ("value", .ref "UiBucket" "bucketWebsiteDomainName"),
     ("description", .lit "The website domain name for the UI bucket")]⟩]

/-- The resource nodes declared by the `MonorepoStack` constructor of the
unnamed source part (part_000), in source declaration order: bucket,
bucket deployment, hosted zone, imported certificate, origin access
identity, distribution, alias record, two lambdas, REST API, secret, the
API key fed from the secret, the two resource GET methods, the DynamoDB
table, and the two stack outputs. -/
def part000Nodes (stackId : String) (p : ServiceProperties) :
    List ResourceNode :=
  [⟨"UiBucket", .bucket,
    [("bucketName", .lit "d2c-cdk-workshop-monorepo-ui-malte"),
     ("removalPolicy", .lit "DESTROY"),
     ("autoDeleteObjects", .lit "true"),
     ("websiteIndexDocument", .lit "index.html"),
     ("websiteErrorDocument", .lit "index.html")]⟩,
   ⟨"UiDeployment", .bucketDeployment,
    [("destinationBucket", .ref "UiBucket" "bucketName"),
     ("sources", .lit "./ui/dist/my-app")]⟩,
   ⟨"HostedZone", .hostedZone,
    [("zoneName", .lit p.domainName),
     ("hostedZoneId", .lit p.hostedZoneId)]⟩,
   ⟨"CertificateImportedFromUsEast1", .certificate,
    [("certificateArn", .lit p.certArnUsEast1)]⟩,
   ⟨"cloudfront-OAI", .originAccessIdentity,
    [("comment", .lit ("OAI for " ++ stackId))]⟩,
   ⟨"SiteDistribution", .distribution,
    [("certificate", .ref "CertificateImportedFromUsEast1" "certificateArn"),
     ("defaultRootObject", .lit "index.html"),
     ("domainNames", .lit p.domainName),
     ("minimumProtocolVersion", .lit "TLS_V1_2_2021"),
     ("errorResponsePagePath", .lit "/error.html"),
     ("defaultBehaviorOrigin",
      .refSeq [("UiBucket", "bucketRegionalDomainName"),
               ("cloudfront-OAI", "originAccessIdentityId")]),
     ("viewerProtocolPolicy", .lit "REDIRECT_TO_HTTPS")]⟩,
   ⟨"SiteAliasRecord", .aliasRecord,
    [("recordName", .lit p.domainName),
     ("target", .ref "SiteDistribution" "distributionDomainName"),
     ("zone", .ref "HostedZone" "hostedZoneId")]⟩,
   ⟨"DemoLambda", .lambdaFunction,
    [("architecture", .lit "ARM_64"),
     ("runtime", .lit "NODEJS_18_X"),
     ("memorySize", .lit "512"),
     ("code", .lit "./services/demo"),
     ("handler", .lit "index.handler")]⟩,
   ⟨"FoobarLambda", .lambdaFunction,
    [("architecture", .lit "ARM_64"),
     ("runtime", .lit "NODEJS_18_X"),
     ("memorySize", .lit "512"),
     ("code", .lit "./services/foobar"),
     ("handler", .lit "index.handler")]⟩,
   ⟨"RestApi", .restApi,
    [("apiKeySourceType", .lit "HEADER")]⟩,
   ⟨"Secret", .secret,
    [("generateStringKey", .lit "api_key"),
     ("secretStringTemplate", .lit "\x7b\"username\":\"web_user\"\x7d"),
     ("excludeCharacters",
      .lit " %+~\x60#$&*()|[]\x7b\x7d:;<>?!\x27/@\"\\")]⟩,
   ⟨"ApiKey", .apiKey,
    [("apiKeyName", .lit "web-app-key"),
     ("value", .ref "Secret" "api_key"),
     ("api", .ref "RestApi" "restApiId")]⟩,
   ⟨"DemoResourceGET", .apiMethod,
    [("api", .ref "RestApi" "restApiId"),
     ("path", .lit "demo"),
     ("httpMethod", .lit "GET"),
     ("integration", .ref "DemoLambda" "functionArn"),
     ("apiKeyRequired", .lit "true")]⟩,
   ⟨"FoobarResourceGET", .apiMethod,
    [("api", .ref "RestApi" "restApiId"),
     ("path", .lit "foobar"),
     ("httpMethod", .lit "GET"),
     ("integration", .ref "FoobarLambda" "functionArn"),
     ("apiKeyRequired", .lit "true")]⟩,
   ⟨"MyFirstDynamoDBTable", .table,
    [("tableName", .lit "my-first-dynamodb-table"),
     ("partitionKeyName", .lit "id"),
     ("partitionKeyType", .lit "STRING")]⟩,
   ⟨"UiBucketDomainOutput", .cfnOutput,
    [("exportName", .lit "ui-bucket:domain-name"),
     ("value", .ref "UiBucket" "bucketWebsiteDomainName"),
     ("description", .lit "The website domain name for the UI bucket")]⟩,
   ⟨"API Key ID", .cfnOutput,
    [("value", .ref "Secret" "api_key"),
     ("description", .lit "The api key for getting access")]⟩]

/-- The configuration literals hard-wired in the entry point
(`CONFIG GOES HERE` section of the unnamed source part). -/
def appServiceProperties : ServiceProperties :=
  ⟨"trenkwalder-learning-mh.com",
   "Z1JY41Y266322D",
   "arn:aws:acm:us-east-1:509130371655:certificate/ce789b81-c8ee-4da1-b80d-dd8cbb7133aa"⟩

/-- The node set declared by one run of the entry point: the entry point
instantiates `MonorepoStack` with id `MonorepoStack`, the hard-wired
configuration literals, and the ambient environment `env`; the
environment flows only into the stack-level `env` property and into no
resource node. -/
def appNodes (_env : StackEnv) : List ResourceNode :=
  part000Nodes "MonorepoStack" appServiceProperties

/-- Whether consecutive elements of a node sequence are all edges. -/
def edgeChain (edges : List (String × String)) : List String → Bool
  | [] => true
  | [_] => true
  | a :: b :: rest => decide ((a, b) ∈ edges) && edgeChain edges (b :: rest)

/-- A genuine directed cycle of the edge set: a sequence of at least two
nodes in which each consecutive pair is an edge and the last node equals
the first. -/
def isCycle (edges : List (String × String)) (c : List String) : Bool :=
  decide (2 ≤ c.length) && edgeChain edges c && decide (c.head? = c.getLast?)

/-- An edge set with no directed cycle. -/
def Acyclic (edges : List (String × String)) : Prop :=
  ∀ c, isCycle edges c = false

/-- The index of the first occurrence of an element in a list (the
length of the list when absent). -/
def idxIn (a : String) : List String → Nat
  | [] => 0
  | x :: xs => if x = a then 0 else idxIn a xs + 1

lemma idxIn_append_left {a : String} {l₁ : List String} (l₂ : List String)
    (h : a ∈ l₁) : idxIn a (l₁ ++ l₂) = idxIn a l₁ := by
  induction l₁ with
  | nil => cases h
  | cons x xs ih =>
    by_cases hx : x = a
    · simp [idxIn, hx]
    · rcases List.mem_cons.mp h with h | h
      · exact absurd h.symm hx
      · simp [idxIn, hx, ih h]

lemma idxIn_append_right {a : String} {l₁ : List String} (l₂ : List String)
    (h : a ∉ l₁) : idxIn a (l₁ ++ l₂) = l₁.length + idxIn a l₂ := by
  induction l₁ with
  | nil => simp
  | cons x xs ih =>
    have hx : x ≠ a := by rintro rfl; exact h (List.mem_cons_self _ _)
    have hxs : a ∉ xs := fun hm => h (List.mem_cons_of_mem _ hm)
    simp [idxIn, hx, ih hxs]
    omega

lemma idxIn_lt_length {a : String} {l : List String} (h : a ∈ l) :
    idxIn a l < l.length := by
  induction l with
  | nil => cases h
  | cons x xs ih =>
    by_cases hx : x = a
    · simp [idxIn, hx]
    · rcases List.mem_cons.mp h with h | h
      · exact absurd h.symm hx
      · simpa [idxIn, hx] using Nat.succ_lt_succ (ih h)

/-- Membership in the dependency list agrees with the edge set. -/
lemma mem_deps {edges : List (String × String)} {n d : String} :
    d ∈ deps edges n ↔ (n, d) ∈ edges := by
  constructor
  · intro h
    rcases List.mem_map.mp h with ⟨e, he, rfl⟩
    rcases List.mem_filter.mp he with ⟨hmem, hfst⟩
    have : e.1 = n := by simpa using hfst
    rcases e with ⟨f, t⟩
    cases this
    simpa using hmem
  · intro h
    refine List.mem_map.mpr ⟨(n, d), List.mem_filter.mpr ⟨h, by simp⟩, rfl⟩

/-- A linear order is good for the edge set when every edge source that
occurs in it is preceded by its target. -/
def GoodOrder (edges : List (String × String)) (l : List String) : Prop :=
  ∀ m d, (m, d) ∈ edges → m ∈ l → d ∈ l ∧ idxIn d l < idxIn m l

lemma goodOrder_nil (edges : List (String × String)) : GoodOrder edges [] :=
  fun _ _ _ h => absurd h (List.not_mem_nil _)

lemma goodOrder_append (edges : List (String × String)) {l : List String}
    {n : String} (hg : GoodOrder edges l)
    (hdeps : ∀ d, (n, d) ∈ edges → d ∈ l) (hn : n ∉ l) :
    GoodOrder edges (l ++ [n]) := by
  intro m d hmd hm
  rcases List.mem_append.mp hm with hm | hm
  · rcases hg m d hmd hm with ⟨hd, hlt⟩
    refine ⟨List.mem_append_left _ hd, ?_⟩
    rw [idxIn_append_left _ hd, idxIn_append_left _ hm]
    exact hlt
  · have hm' : m = n := by simpa using hm
    subst hm'
    have hd := hdeps d hmd
    refine ⟨List.mem_append_left _ hd, ?_⟩
    rw [idxIn_append_left _ hd, idxIn_append_right _ hn]
    have := idxIn_lt_length hd
    simp [idxIn]
    omega

/-- Along a chain of edges whose targets rank strictly below their
sources, the rank of the last element is at most the rank of the head. -/
lemma edgeChain_rank_le {edges : List (String × String)} (r : String → Nat)
    (hr : ∀ f t, (f, t) ∈ edges → r t < r f) :
    ∀ l a b, edgeChain edges (a :: l) = true →
      (a :: l).getLast? = some b → r b ≤ r a := by
  intro l
  induction l with
  | nil =>
    intro a b _ hlast
    have hab : a = b := by simpa using hlast
    subst hab
    exact Nat.le_refl _
  | cons x xs ih =>
    intro a b hchain hlast
    have hsplit : (a, x) ∈ edges ∧ edgeChain edges (x :: xs) = true := by
      simpa [edgeChain] using hchain
    have hlast' : (x :: xs).getLast? = some b := by
      simpa [List.getLast?_cons_cons] using hlast
    have h1 := ih x b hsplit.2 hlast'
    have h2 := hr a x hsplit.1
    omega

/-- If some rank function strictly decreases along every edge, the edge
set has no directed cycle. -/
lemma noCycle_of_rank {edges : List (String × String)} (r : String → Nat)
    (hr : ∀ f t, (f, t) ∈ edges → r t < r f) : Acyclic edges := by
  intro c
  by_contra h
  have hc : isCycle edges c = true := by
    cases hcy : isCycle edges c
    · exact absurd hcy h
    · rfl
  have hparts : (2 ≤ c.length ∧ edgeChain edges c = true) ∧
      c.head? = c.getLast? := by
    simpa [isCycle, Bool.and_eq_true] using hc
  obtain ⟨⟨hlen, hchain⟩, hhl⟩ := hparts
  match c, hlen, hchain, hhl with
  | a :: x :: rest, _, hchain, hhl =>
    have hsplit : (a, x) ∈ edges ∧ edgeChain edges (x :: rest) = true := by
      simpa [edgeChain] using hchain
    have hlast : (x :: rest).getLast? = some a := by
      have hh : (a :: x :: rest).head? = some a := rfl
      rw [hh] at hhl
      simpa [List.getLast?_cons_cons] using hhl.symm
    have h1 : r a ≤ r x := edgeChain_rank_le r hr rest x a hsplit.2 hlast
    have h2 : r x < r a := hr a x hsplit.1
    omega

/-- What a successful visit of one node guarantees: the black list only
grows, by nodes that are neither gray nor already black and that are the
visited node or an edge target; the visited node is black afterwards;
distinctness and goodness of the black list are preserved. -/
def NodeConc (edges : List (String × String)) (gray b : List String)
    (n : String) (b' : List String) : Prop :=
  (∃ ext, b' = b ++ ext ∧
    ∀ x ∈ ext, x ∉ gray ∧ x ∉ b ∧ (x = n ∨ ∃ m, (m, x) ∈ edges)) ∧
  n ∈ b' ∧ (b.Nodup → b'.Nodup) ∧
  (GoodOrder edges b → GoodOrder edges b')

/-- What a successful visit of a list of nodes guarantees. -/
def DepsConc (edges : List (String × String)) (gray b : List String)
    (ds : List String) (b' : List String) : Prop :=
  (∃ ext, b' = b ++ ext ∧
    ∀ x ∈ ext, x ∉ gray ∧ x ∉ b ∧ (x ∈ ds ∨ ∃ m, (m, x) ∈ edges)) ∧
  (∀ d ∈ ds, d ∈ b') ∧ (b.Nodup → b'.Nodup) ∧
  (GoodOrder edges b → GoodOrder edges b')

lemma visitDeps_ok {edges : List (String × String)} (gray : List String)
    {f : List String → String → Option (Except PlanError (List String))}
    (hf : ∀ b d b', f b d = some (.ok b') → NodeConc edges gray b d b') :
    ∀ ds b b', visitDeps f b ds = some (.ok b') →
      DepsConc edges gray b ds b' := by
  intro ds
  induction ds with
  | nil =>
    intro b b' h
    have hb : b = b' := by simpa [visitDeps] using h
    subst hb
    exact ⟨⟨[], by simp, by simp⟩, by simp, fun h => h, fun h => h⟩
  | cons d ds ih =>
    intro b b' h
    rw [visitDeps] at h
    cases hfd : f b d with
    | none => rw [hfd] at h; cases h
    | some r =>
      cases r with
      | error e => rw [hfd] at h; simp at h
      | ok b₁ =>
        rw [hfd] at h
        simp only at h
        have hnode := hf b d b₁ hfd
        have hrest := ih b₁ b' h
        obtain ⟨⟨ext₁, hb₁, hx₁⟩, hdmem, hnd₁, hg₁⟩ := hnode
        obtain ⟨⟨ext₂, hb₂, hx₂⟩, hds, hnd₂, hg₂⟩ := hrest
        refine ⟨⟨ext₁ ++ ext₂, by rw [hb₂, hb₁, List.append_assoc], ?_⟩,
          ?_, fun hb => hnd₂ (hnd₁ hb), fun hb => hg₂ (hg₁ hb)⟩
        · intro x hx
          rcases List.mem_append.mp hx with hx | hx
          · rcases hx₁ x hx with ⟨hxg, hxb, hxo⟩
            refine ⟨hxg, hxb, ?_⟩
            rcases hxo with rfl | hxo
            · exact Or.inl (List.mem_cons_self _ _)
            · exact Or.inr hxo
          · rcases hx₂ x hx with ⟨hxg, hxb₁, hxo⟩
            refine ⟨hxg, fun hxb => hxb₁ (hb₁ ▸ List.mem_append_left _ hxb), ?_⟩
            rcases hxo with hxo | hxo
            · exact Or.inl (List.mem_cons_of_mem _ hxo)
            · exact Or.inr hxo
        · intro d' hd'
          rcases List.mem_cons.mp hd' with rfl | hd'
          · rw [hb₂]; exact List.mem_append_left _ hdmem
          · exact hds d' hd'

lemma visitNode_ok {edges : List (String × String)} :
    ∀ fuel gray b n b', visitNode edges fuel gray b n = some (.ok b') →
      NodeConc edges gray b n b' := by
  intro fuel
  induction fuel with
  | zero => intro gray b n b' h; simp [visitNode] at h
  | succ fuel ih =>
    intro gray b n b' h
    rw [visitNode] at h
    by_cases hb : n ∈ b
    · rw [if_pos hb] at h
      simp only [Option.some.injEq, Except.ok.injEq] at h
      subst h
      exact ⟨⟨[], by simp, by simp⟩, hb, fun h => h, fun h => h⟩
    · rw [if_neg hb] at h
      by_cases hg : n ∈ gray
      · rw [if_pos hg] at h; simp at h
      · rw [if_neg hg] at h
        cases hm : visitDeps (fun b d => visitNode edges fuel (n :: gray) b d)
            b (deps edges n) with
        | none => rw [hm] at h; cases h
        | some r =>
          cases r with
          | error e => rw [hm] at h; simp at h
          | ok b₁ =>
            rw [hm] at h
            simp only [Option.some.injEq, Except.ok.injEq] at h
            subst h
            have hdc := visitDeps_ok (n :: gray)
              (fun b d b' hcall => ih (n :: gray) b d b' hcall)
              (deps edges n) b b₁ hm
            obtain ⟨⟨ext₁, hb₁, hx₁⟩, hds, hnd, hgo⟩ := hdc
            have hnb₁ : n ∉ b₁ := by
              rw [hb₁]
              intro hmem
              rcases List.mem_append.mp hmem with hmem | hmem
              · exact hb hmem
              · exact (hx₁ n hmem).1 (List.mem_cons_self _ _)
            refine ⟨⟨ext₁ ++ [n], by rw [hb₁, List.append_assoc], ?_⟩,
              List.mem_append_right _ (List.mem_cons_self _ _), ?_, ?_⟩
            · intro x hx
              rcases List.mem_append.mp hx with hx | hx
              · rcases hx₁ x hx with ⟨hxg, hxb, hxo⟩
                refine ⟨fun hc => hxg (List.mem_cons_of_mem _ hc), hxb, ?_⟩
                rcases hxo with hxo | hxo
                · exact Or.inr ⟨n, mem_deps.mp hxo⟩
                · exact Or.inr hxo
              · have hx' : x = n := by simpa using hx
                subst hx'
                exact ⟨hg, hb, Or.inl rfl⟩
            · intro hnd₀
              refine List.nodup_append.mpr ⟨hnd hnd₀, List.nodup_singleton _, ?_⟩
              intro a ha ha'
              have : a = n := by simpa using ha'
              subst this
              exact hnb₁ ha
            · intro hgo₀
              exact goodOrder_append edges (hgo hgo₀)
                (fun d hd => hds d (mem_deps.mpr hd)) hnb₁

lemma visitDeps_ne_none
    {f : List String → String → Option (Except PlanError (List String))}
    (P : String → Prop) (hf : ∀ b d, P d → f b d ≠ none) :
    ∀ ds b, (∀ d ∈ ds, P d) → visitDeps f b ds ≠ none := by
  intro ds
  induction ds with
  | nil => intro b _ h; simp [visitDeps] at h
  | cons d ds ih =>
    intro b hP h
    rw [visitDeps] at h
    cases hfd : f b d with
    | none => exact hf b d (hP d (List.mem_cons_self _ _)) hfd
    | some r =>
      rw [hfd] at h
      cases r with
      | error e => cases h
      | ok b₁ => exact ih b₁ (fun d' hd' => hP d' (List.mem_cons_of_mem _ hd')) h

lemma visitNode_ne_none {edges : List (String × String)} {ids : List String}
    (htgt : ∀ e ∈ edges, e.2 ∈ ids) :
    ∀ fuel gray b n, gray.Nodup → (∀ x ∈ gray, x ∈ ids) → n ∈ ids →
      ids.length + 1 ≤ fuel + gray.length →
      visitNode edges fuel gray b n ≠ none := by
  intro fuel
  induction fuel with
  | zero =>
    intro gray b n hnd hsub _ hbound
    have hle : gray.length ≤ ids.length :=
      (List.subperm_of_subset hnd hsub).length_le
    omega
  | succ fuel ih =>
    intro gray b n hnd hsub hn hbound h
    rw [visitNode] at h
    by_cases hb : n ∈ b
    · rw [if_pos hb] at h; cases h
    · rw [if_neg hb] at h
      by_cases hg : n ∈ gray
      · rw [if_pos hg] at h; cases h
      · rw [if_neg hg] at h
        have hne : visitDeps (fun b d => visitNode edges fuel (n :: gray) b d)
            b (deps edges n) ≠ none := by
          refine visitDeps_ne_none (fun d => d ∈ ids)
            (fun b' d hd => ih (n :: gray) b' d
              (List.nodup_cons.mpr ⟨hg, hnd⟩)
              (fun x hx => by
                rcases List.mem_cons.mp hx with rfl | hx
                · exact hn
                · exact hsub x hx)
              hd (by simp; omega)) _ b ?_
          intro d hd
          exact htgt (n, d) (mem_deps.mp hd)
        cases hm : visitDeps (fun b d => visitNode edges fuel (n :: gray) b d)
            b (deps edges n) with
        | none => exact hne hm
        | some r =>
          rw [hm] at h
          cases r with
          | error e => cases h
          | ok b₁ => cases h

/-- Every error produced by the traversal is a `CyclicDependencyError`
whose path is a genuine cycle of the edge set. -/
def ErrConc (edges : List (String × String)) (e : PlanError) : Prop :=
  ∃ p, e = .cyclicDependency p ∧ isCycle edges p = true

/-- The parent invariant: the node being visited is a dependency of the
top of the gray stack. -/
def ParentEdge (edges : List (String × String)) (gray : List String)
    (n : String) : Prop :=
  ∀ g, gray.head? = some g → (g, n) ∈ edges

/-- The gray-stack invariant: each in-progress node is a dependency of
the node below it on the stack. -/
def GrayChain (edges : List (String × String)) (gray : List String) : Prop :=
  List.Chain' (fun a b => (b, a) ∈ edges) gray

lemma edgeChain_iff_chain' {edges : List (String × String)} :
    ∀ {l : List String}, edgeChain edges l = true ↔
      List.Chain' (fun a b => (a, b) ∈ edges) l := by
  intro l
  induction l with
  | nil => simp [edgeChain]
  | cons a l ih =>
    cases l with
    | nil => simp [edgeChain]
    | cons b rest =>
      rw [edgeChain, List.chain'_cons, Bool.and_eq_true, decide_eq_true_eq]
      exact and_congr Iff.rfl ih

lemma dropWhile_mem_head {n : String} :
    ∀ {gray : List String}, n ∈ gray →
      ∃ R, gray.dropWhile (fun x => x != n) = n :: R := by
  intro gray
  induction gray with
  | nil => intro h; cases h
  | cons g gs ih =>
    intro h
    by_cases hg : g = n
    · subst hg
      exact ⟨gs, by simp [List.dropWhile_cons]⟩
    · have hn : n ∈ gs := by
        rcases List.mem_cons.mp h with h | h
        · exact absurd h.symm hg
        · exact h
      rcases ih hn with ⟨R, hR⟩
      refine ⟨R, ?_⟩
      rw [List.dropWhile_cons, if_pos (by simpa using hg), hR]

lemma cycleFrom_genuine {edges : List (String × String)}
    {gray : List String} {n : String} (hmem : n ∈ gray)
    (hch : GrayChain edges gray) (hp : ParentEdge edges gray n) :
    isCycle edges (cycleFrom gray n) = true := by
  set T := gray.takeWhile (fun x => x != n) with hT
  rcases dropWhile_mem_head hmem with ⟨R, hR⟩
  have hgray : gray = T ++ n :: R := by
    rw [hT, ← hR]
    exact (List.takeWhile_append_dropWhile _ _).symm
  have hchainP : List.Chain' (fun a b => (b, a) ∈ edges) (T ++ [n]) := by
    have : List.Chain' (fun a b => (b, a) ∈ edges) ((T ++ [n]) ++ R) := by
      rw [List.append_assoc]
      simpa [hgray] using hch
    exact this.left_of_append
  have hchainRev : List.Chain' (fun a b => (a, b) ∈ edges) (T ++ [n]).reverse := by
    rw [List.chain'_reverse]
    exact hchainP
  have hheads : gray.head? = (T ++ [n]).head? := by
    rw [hgray]
    cases T with
    | nil => rfl
    | cons t ts => rfl
  have hlink : ∀ x ∈ ((T ++ [n]).reverse).getLast?, ∀ y ∈ ([n] : List String).head?,
      (x, y) ∈ edges := by
    intro x hx y hy
    have hy' : n = y := by simpa using hy
    subst hy'
    rw [List.getLast?_reverse] at hx
    have hgx : gray.head? = some x := by rw [hheads]; exact hx
    exact hp x hgx
  have hchainC : List.Chain' (fun a b => (a, b) ∈ edges)
      ((T ++ [n]).reverse ++ [n]) :=
    List.Chain'.append hchainRev (List.chain'_singleton _) hlink
  have hCdef : cycleFrom gray n = (T ++ [n]).reverse ++ [n] := by
    rw [cycleFrom, hT]
  have hCcons : cycleFrom gray n = n :: (T.reverse ++ [n]) := by
    rw [hCdef, List.reverse_append]
    rfl
  rw [isCycle, Bool.and_eq_true, Bool.and_eq_true]
  refine ⟨⟨?_, ?_⟩, ?_⟩
  · rw [decide_eq_true_eq, hCcons]
    simp
  · rw [edgeChain_iff_chain', hCdef]
    exact hchainC
  · rw [decide_eq_true_eq, hCcons]
    have h1 : (n :: (T.reverse ++ [n])).head? = some n := rfl
    have h2 : (n :: (T.reverse ++ [n])).getLast? = some n := by
      have : n :: (T.reverse ++ [n]) = (n :: T.reverse) ++ [n] := by simp
      rw [this]
      exact List.getLast?_concat _
    rw [h1, h2]

lemma visitDeps_error
    {f : List String → String → Option (Except PlanError (List String))}
    {edges : List (String × String)} (P : String → Prop)
    (hf : ∀ b d e, P d → f b d = some (.error e) → ErrConc edges e) :
    ∀ ds b e, (∀ d ∈ ds, P d) → visitDeps f b ds = some (.error e) →
      ErrConc edges e := by
  intro ds
  induction ds with
  | nil => intro b e _ h; simp [visitDeps] at h
  | cons d ds ih =>
    intro b e hP h
    rw [visitDeps] at h
    cases hfd : f b d with
    | none => rw [hfd] at h; cases h
    | some r =>
      rw [hfd] at h
      cases r with
      | error e' =>
        have he : e' = e := by simpa using h
        exact he ▸ hf b d e' (hP d (List.mem_cons_self _ _)) hfd
      | ok b₁ => exact ih b₁ e (fun d' hd' => hP d' (List.mem_cons_of_mem _ hd')) h

lemma visitNode_error {edges : List (String × String)} :
    ∀ fuel gray b n e, GrayChain edges gray → ParentEdge edges gray n →
      visitNode edges fuel gray b n = some (.error e) → ErrConc edges e := by
  intro fuel
  induction fuel with
  | zero => intro gray b n e _ _ h; simp [visitNode] at h
  | succ fuel ih =>
    intro gray b n e hch hp h
    rw [visitNode] at h
    by_cases hb : n ∈ b
    · rw [if_pos hb] at h; simp at h
    · rw [if_neg hb] at h
      by_cases hg : n ∈ gray
      · rw [if_pos hg] at h
        have he : PlanError.cyclicDependency (cycleFrom gray n) = e := by
          simpa using h
        exact ⟨cycleFrom gray n, he.symm, cycleFrom_genuine hg hch hp⟩
      · rw [if_neg hg] at h
        cases hm : visitDeps (fun b d => visitNode edges fuel (n :: gray) b d)
            b (deps edges n) with
        | none => rw [hm] at h; cases h
        | some r =>
          rw [hm] at h
          cases r with
          | ok b₁ => simp at h
          | error e' =>
            have he : e' = e := by simpa using h
            have hch' : GrayChain edges (n :: gray) := by
              rw [GrayChain, List.chain'_cons']
              exact ⟨fun g hg' => hp g hg', hch⟩
            refine he ▸ visitDeps_error (fun d => d ∈ deps edges n)
              (fun b' d e'' hd hcall =>
                ih (n :: gray) b' d e'' hch'
                  (fun g hgeq => by
                    have hgn : n = g := by simpa using hgeq
                    subst hgn
                    exact mem_deps.mp hd)
                  hcall)
              _ b e' (fun d hd => hd) hm

lemma topoSort_ok {ids edges : List _} {order : List String}
    (h : topoSort ids edges = .ok order) :
    (∀ x ∈ ids, x ∈ order) ∧ order.Nodup ∧ GoodOrder edges order ∧
      (∀ x ∈ order, x ∈ ids ∨ ∃ m, (m, x) ∈ edges) := by
  rw [topoSort] at h
  cases hm : visitDeps (fun b d => visitNode edges (ids.length + 1) [] b d)
      [] ids with
  | none => rw [hm] at h; cases h
  | some r =>
    rw [hm] at h
    cases r with
    | error e => cases h
    | ok b' =>
      have hb : b' = order := by simpa using h
      subst hb
      have hdc := visitDeps_ok []
        (fun b d b'' hcall => visitNode_ok _ _ _ _ _ hcall) ids [] b' hm
      obtain ⟨⟨ext, hb, hx⟩, hds, hnd, hg⟩ := hdc
      refine ⟨hds, hnd (List.nodup_nil), hg (goodOrder_nil edges), ?_⟩
      intro x hxo
      have hxe : x ∈ ext := by
        rw [hb] at hxo
        simpa using hxo
      exact (hx x hxe).2.2

lemma topoSort_err {ids edges : List _} {e : PlanError}
    (htgt : ∀ e' ∈ edges, e'.2 ∈ ids)
    (h : topoSort ids edges = .error e) : ErrConc edges e := by
  rw [topoSort] at h
  cases hm : visitDeps (fun b d => visitNode edges (ids.length + 1) [] b d)
      [] ids with
  | none =>
    exact absurd hm
      (visitDeps_ne_none (fun d => d ∈ ids)
        (fun b d hd =>
          visitNode_ne_none htgt (ids.length + 1) [] b d List.nodup_nil
            (by simp) hd (by simp))
        ids [] (fun d hd => hd))
  | some r =>
    rw [hm] at h
    cases r with
    | ok b' => cases h
    | error e' =>
      have he : e' = e := by simpa using h
      refine he ▸ visitDeps_error (fun _ => True)
        (fun b d e'' _ hcall =>
          visitNode_error _ _ _ _ _ (List.chain'_nil) (fun g hg => by cases hg)
            hcall)
        ids [] e' (fun _ _ => trivial) hm

/-- A decidable check that some rank strictly decreases along every edge
of a concrete edge list, yielding the universally quantified form. -/
lemma edges_rank_of_all {edges : List (String × String)} {r : String → Nat}
    (h : edges.all (fun e => decide (r e.2 < r e.1)) = true) :
    ∀ f t, (f, t) ∈ edges → r t < r f := by
  intro f t hm
  simpa using List.all_eq_true.mp h (f, t) hm

/-- The failed set accumulated by a run over a processed prefix. -/
def failedAfter (edges : List (String × String)) (bf : String → Bool)
    (l : List String) : List String :=
  (execRun edges bf [] l).1

/-- The node an execution report is about. -/
def reportId : ExecReport → String
  | .create s => s
  | .dependencyFailed s => s

lemma execRun_append (edges : List (String × String)) (bf : String → Bool) :
    ∀ (l₁ l₂ failed : List String),
      execRun edges bf failed (l₁ ++ l₂) =
        ((execRun edges bf (execRun edges bf failed l₁).1 l₂).1,
         (execRun edges bf failed l₁).2 ++
           (execRun edges bf (execRun edges bf failed l₁).1 l₂).2) := by
  intro l₁
  induction l₁ with
  | nil => intro l₂ failed; simp [execRun]
  | cons x rest ih =>
    intro l₂ failed
    rw [List.cons_append, execRun, execRun]
    split_ifs with h1 h2
    · simp [ih]
    · simp [ih]
    · simp [ih]

lemma execRun_failed_mono (edges : List (String × String)) (bf : String → Bool) :
    ∀ (l failed : List String), failed ⊆ (execRun edges bf failed l).1 := by
  intro l
  induction l with
  | nil => intro failed; simp [execRun]
  | cons x rest ih =>
    intro failed
    rw [execRun]
    split_ifs with h1 h2
    · exact fun a ha => ih (x :: failed) (List.mem_cons_of_mem _ ha)
    · exact fun a ha => ih (x :: failed) (List.mem_cons_of_mem _ ha)
    · exact ih failed

lemma execRun_report_mem (edges : List (String × String)) (bf : String → Bool) :
    ∀ (l failed : List String) (re : ExecReport),
      re ∈ (execRun edges bf failed l).2 → reportId re ∈ l := by
  intro l
  induction l with
  | nil => intro failed re h; simp [execRun] at h
  | cons x rest ih =>
    intro failed re h
    rw [execRun] at h
    split_ifs at h with h1 h2
    · rcases List.mem_cons.mp h with rfl | h
      · exact List.mem_cons_self _ _
      · exact List.mem_cons_of_mem _ (ih _ re h)
    · rcases List.mem_cons.mp h with rfl | h
      · exact List.mem_cons_self _ _
      · exact List.mem_cons_of_mem _ (ih _ re h)
    · rcases List.mem_cons.mp h with rfl | h
      · exact List.mem_cons_self _ _
      · exact List.mem_cons_of_mem _ (ih _ re h)

lemma failedAfter_prefix (edges : List (String × String)) (bf : String → Bool)
    (l q : List String) :
    failedAfter edges bf l ⊆ failedAfter edges bf (l ++ q) := by
  rw [failedAfter, failedAfter, execRun_append]
  exact execRun_failed_mono edges bf q _

lemma take_idx_succ {x : String} : ∀ {l : List String}, x ∈ l →
    l.take (idxIn x l + 1) = l.take (idxIn x l) ++ [x] := by
  intro l
  induction l with
  | nil => intro h; cases h
  | cons y ys ih =>
    intro h
    by_cases hy : y = x
    · subst hy
      simp [idxIn]
    · have hx : x ∈ ys := by
        rcases List.mem_cons.mp h with h | h
        · exact absurd h.symm hy
        · exact h
      simp only [idxIn, if_neg hy]
      rw [List.take_succ_cons, List.take_succ_cons, ih hx]
      rfl

lemma idx_split {x : String} : ∀ {l : List String}, x ∈ l →
    l = l.take (idxIn x l) ++ x :: l.drop (idxIn x l + 1) := by
  intro l
  induction l with
  | nil => intro h; cases h
  | cons y ys ih =>
    intro h
    by_cases hy : y = x
    · subst hy
      simp [idxIn]
    · have hx : x ∈ ys := by
        rcases List.mem_cons.mp h with h | h
        · exact absurd h.symm hy
        · exact h
      simp only [idxIn, if_neg hy]
      rw [List.take_succ_cons, List.drop_succ_cons]
      exact congrArg (y :: ·) (ih hx)

lemma take_prefix_of_le {k k' : Nat} (l : List String) (h : k ≤ k') :
    ∃ q, l.take k' = l.take k ++ q := by
  refine ⟨(l.drop k).take (k' - k), ?_⟩
  rw [← List.take_add]
  congr 1
  omega

/-- The head of the remaining order joins the failed set when one of its
dependencies already failed or the backend reports it failed. -/
lemma mem_execRun_cons_failed {edges : List (String × String)}
    {bf : String → Bool} {failed : List String} {x : String}
    (rest : List String)
    (h : (∃ d ∈ deps edges x, d ∈ failed) ∨ bf x = true) :
    x ∈ (execRun edges bf failed (x :: rest)).1 := by
  rw [execRun]
  by_cases h1 : ∃ d ∈ deps edges x, d ∈ failed
  · rw [if_pos h1]
    show x ∈ (execRun edges bf (x :: failed) rest).1
    exact execRun_failed_mono edges bf rest _ (List.mem_cons_self _ _)
  · have hbf : bf x = true := h.resolve_left h1
    rw [if_neg h1, if_pos hbf]
    show x ∈ (execRun edges bf (x :: failed) rest).1
    exact execRun_failed_mono edges bf rest _ (List.mem_cons_self _ _)

/-- A node reported failed by the backend is in the failed set right
after its own step. -/
lemma mem_failedAfter_of_bf {edges : List (String × String)}
    {bf : String → Bool} {order : List String} {B : String}
    (hB : bf B = true) (hmem : B ∈ order) :
    B ∈ failedAfter edges bf (order.take (idxIn B order + 1)) := by
  rw [take_idx_succ hmem, failedAfter, execRun_append]
  show B ∈ (execRun edges bf
    (execRun edges bf [] (order.take (idxIn B order))).1 [B]).1
  exact mem_execRun_cons_failed [] (Or.inr hB)

/-- A node with an already-failed dependency is in the failed set right
after its own step. -/
lemma mem_failedAfter_of_skipped {edges : List (String × String)}
    {bf : String → Bool} {order : List String} {m : String}
    (hmem : m ∈ order)
    (hsk : ∃ d ∈ deps edges m, d ∈ failedAfter edges bf
      (order.take (idxIn m order))) :
    m ∈ failedAfter edges bf (order.take (idxIn m order + 1)) := by
  rw [take_idx_succ hmem, failedAfter, execRun_append]
  simp only [failedAfter] at hsk
  show m ∈ (execRun edges bf
    (execRun edges bf [] (order.take (idxIn m order))).1 [m]).1
  exact mem_execRun_cons_failed [] (Or.inl hsk)

lemma except_bind_ok {α β γ : Type} (a : α) (f : α → Except γ β) :
    ((Except.ok a : Except γ α) >>= f) = f a := rfl

lemma except_bind_err {α β γ : Type} (e : γ) (f : α → Except γ β) :
    ((Except.error e : Except γ α) >>= f) = .error e := rfl

lemma buildGraphAux_nodup :
    ∀ (ns : List ResourceNode) (g g' : DependencyGraph),
      buildGraphAux g ns = .ok g' → g.ids.Nodup → g'.ids.Nodup := by
  intro ns
  induction ns with
  | nil =>
    intro g g' h hnd
    have : g = g' := by simpa [buildGraphAux] using h
    exact this ▸ hnd
  | cons n ns ih =>
    intro g g' h hnd
    rw [buildGraphAux] at h
    by_cases hmem : n.id ∈ g.ids
    · rw [addNode, if_pos hmem] at h
      cases h
    · rw [addNode, if_neg hmem, except_bind_ok] at h
      refine ih _ g' h ?_
      have : (⟨g.nodes ++ [n]⟩ : DependencyGraph).ids = g.ids ++ [n.id] := by
        simp [DependencyGraph.ids]
      rw [this]
      refine List.nodup_append.mpr ⟨hnd, List.nodup_singleton _, ?_⟩
      intro a ha ha'
      have : a = n.id := by simpa using ha'
      exact hmem (this ▸ ha)

lemma buildGraphAux_ok :
    ∀ (ns : List ResourceNode) (g : DependencyGraph),
      (g.ids ++ ns.map (fun n => n.id)).Nodup →
      buildGraphAux g ns = .ok ⟨g.nodes ++ ns⟩ := by
  intro ns
  induction ns with
  | nil => intro g _; simp [buildGraphAux]
  | cons n ns ih =>
    intro g hnd
    have hmem : n.id ∉ g.ids := by
      intro hc
      have h1 : (g.ids).Disjoint (n.id :: ns.map (fun n => n.id)) :=
        List.disjoint_of_nodup_append hnd
      exact h1 hc (List.mem_cons_self _ _)
    rw [buildGraphAux, addNode, if_neg hmem, except_bind_ok]
    have hids : (⟨g.nodes ++ [n]⟩ : DependencyGraph).ids = g.ids ++ [n.id] := by
      simp [DependencyGraph.ids]
    have hnd' : ((⟨g.nodes ++ [n]⟩ : DependencyGraph).ids ++
        ns.map (fun n => n.id)).Nodup := by
      rw [hids, List.append_assoc]
      simpa using hnd
    rw [ih _ hnd']
    simp

lemma buildGraph_ok (ns : List ResourceNode)
    (h : (ns.map (fun n => n.id)).Nodup) : buildGraph ns = .ok ⟨ns⟩ := by
  have := buildGraphAux_ok ns ⟨[]⟩ (by simpa [DependencyGraph.ids] using h)
  simpa [buildGraph] using this

lemma checkRefs_err_shape {ids : List String} {src : String} :
    ∀ {ts : List String} {e : PlanError}, checkRefs ids src ts = .error e →
      ∃ t', e = .unresolvedReference src t' := by
  intro ts
  induction ts with
  | nil => intro e h; simp [checkRefs] at h
  | cons t ts ih =>
    intro e h
    rw [checkRefs] at h
    by_cases hmem : t ∈ ids
    · rw [if_pos hmem] at h
      cases hc : checkRefs ids src ts with
      | error e' =>
        rw [hc, except_bind_err] at h
        have : e' = e := by simpa using h
        exact this ▸ ih hc
      | ok rest => rw [hc, except_bind_ok] at h; cases h
    · rw [if_neg hmem] at h
      have : PlanError.unresolvedReference src t = e := by simpa using h
      exact ⟨t, this.symm⟩

lemma checkRefs_err {ids : List String} {src : String} :
    ∀ {ts : List String} {t : String}, t ∈ ts → t ∉ ids →
      ∃ t', checkRefs ids src ts = .error (.unresolvedReference src t') := by
  intro ts
  induction ts with
  | nil => intro t h; cases h
  | cons u us ih =>
    intro t ht htid
    by_cases hu : u ∈ ids
    · have htu : t ∈ us := by
        rcases List.mem_cons.mp ht with rfl | h
        · exact absurd hu htid
        · exact h
      rcases ih htu htid with ⟨t', ht'⟩
      refine ⟨t', ?_⟩
      rw [checkRefs, if_pos hu, ht', except_bind_err]
    · exact ⟨u, by rw [checkRefs, if_neg hu]⟩

lemma resolveEdgesAux_err (ids : List String) :
    ∀ {ns : List ResourceNode} {n : ResourceNode}, n ∈ ns →
      (∃ t ∈ nodeRefs n, t ∉ ids) →
      ∃ s t', resolveEdgesAux ids ns = .error (.unresolvedReference s t') := by
  intro ns
  induction ns with
  | nil => intro n h; cases h
  | cons m ms ih =>
    intro n hn hbad
    rw [resolveEdgesAux]
    cases hc : checkRefs ids m.id (nodeRefs m) with
    | error e =>
      rcases checkRefs_err_shape hc with ⟨t', ht'⟩
      exact ⟨m.id, t', by rw [except_bind_err, ht']⟩
    | ok es =>
      rcases List.mem_cons.mp hn with rfl | hn'
      · rcases hbad with ⟨t, ht, htid⟩
        rcases checkRefs_err ht htid with ⟨t', ht'⟩
        rw [ht'] at hc
        cases hc
      · rcases ih hn' hbad with ⟨s, t', herr⟩
        refine ⟨s, t', ?_⟩
        rw [except_bind_ok, herr, except_bind_err]

/-- With no edges at all, the traversal of a list of fresh distinct nodes
appends them in order. -/
lemma visitDeps_no_edges (F : Nat) :
    ∀ (l black : List String), l.Nodup → (∀ x ∈ l, x ∉ black) →
      visitDeps (fun b d => visitNode [] (F + 1) [] b d) black l =
        some (.ok (black ++ l)) := by
  intro l
  induction l with
  | nil => intro black _ _; simp [visitDeps]
  | cons d ds ih =>
    intro black hnd hfresh
    have hdb : d ∉ black := hfresh d (List.mem_cons_self _ _)
    have hv : visitNode [] (F + 1) [] black d = some (.ok (black ++ [d])) := by
      rw [visitNode, if_neg hdb, if_neg (List.not_mem_nil d)]
      rfl
    rw [visitDeps, hv]
    show visitDeps (fun b d => visitNode [] (F + 1) [] b d) (black ++ [d]) ds =
      some (.ok (black ++ d :: ds))
    rw [ih (black ++ [d]) (List.Nodup.of_cons hnd) ?_]
    · simp
    · intro x hx hmem
      rcases List.mem_append.mp hmem with hmem | hmem
      · exact hfresh x (List.mem_cons_of_mem _ hx) hmem
      · have hxd : x = d := by simpa using hmem
        subst hxd
        exact (List.nodup_cons.mp hnd).1 hx

/-- With an empty edge set the sorter returns the declaration order. -/
lemma topoSort_no_edges (ids : List String) (hnd : ids.Nodup) :
    topoSort ids [] = .ok ids := by
  rw [topoSort]
  rw [visitDeps_no_edges ids.length ids [] hnd (by simp)]
  simp

/-- A transitive dependency chain starts with an edge out of its source. -/
lemma transGen_head_edge {edges : List (String × String)} {a b : String}
    (h : Relation.TransGen (fun x y => (x, y) ∈ edges) a b) :
    ∃ c, (a, c) ∈ edges := by
  induction h with
  | single h' => exact ⟨_, h'⟩
  | tail _ _ ihp => exact ihp

/-- A decidable check that a concrete order is a valid linearization of a
concrete edge list. -/
lemma valid_order_of_all {edges : List (String × String)}
    {order : List String}
    (h : edges.all (fun e => decide (e.2 ∈ order) &&
      decide (idxIn e.2 order < idxIn e.1 order)) = true) :
    ∀ f t, (f, t) ∈ edges → f ∈ order →
      t ∈ order ∧ idxIn t order < idxIn f order := by
  intro f t hm _
  have := List.all_eq_true.mp h (f, t) hm
  simpa using this

/-- The declaration order of the node ids of the lib stack variant. -/
def libDeclIds : List String :=
  ["UiBucket", "HostedZone", "CertificateImportedFromUsEast1",
   "cloudfront-OAI", "SiteDistribution", "SiteAliasRecord", "UiDeployment",
   "TestFunction", "RestApi", "RestApiRootGET", "UiBucketDomainOutput"]

/-- The declaration order of the node ids of the part_000 stack variant. -/
def part000DeclIds : List String :=
  ["UiBucket", "UiDeployment", "HostedZone",
   "CertificateImportedFromUsEast1", "cloudfront-OAI", "SiteDistribution",
   "SiteAliasRecord", "DemoLambda", "FoobarLambda", "RestApi", "Secret",
   "ApiKey", "DemoResourceGET", "FoobarResourceGET", "MyFirstDynamoDBTable",
   "UiBucketDomainOutput", "API Key ID"]

/-- The derived edge set of the lib stack variant. -/
def libStackEdges : List (String × String) :=
  [("SiteDistribution", "CertificateImportedFromUsEast1"),
   ("SiteDistribution", "UiBucket"),
   ("SiteDistribution", "cloudfront-OAI"),
   ("SiteAliasRecord", "SiteDistribution"),
   ("SiteAliasRecord", "HostedZone"),
   ("UiDeployment", "UiBucket"),
   ("RestApiRootGET", "RestApi"),
   ("RestApiRootGET", "TestFunction"),
   ("UiBucketDomainOutput", "UiBucket")]

/-- The derived edge set of the part_000 stack variant. -/
def part000Edges : List (String × String) :=
  [("UiDeployment", "UiBucket"),
   ("SiteDistribution", "CertificateImportedFromUsEast1"),
   ("SiteDistribution", "UiBucket"),
   ("SiteDistribution", "cloudfront-OAI"),
   ("SiteAliasRecord", "SiteDistribution"),
   ("SiteAliasRecord", "HostedZone"),
   ("ApiKey", "Secret"),
   ("ApiKey", "RestApi"),
   ("DemoResourceGET", "RestApi"),
   ("DemoResourceGET", "DemoLambda"),
   ("FoobarResourceGET", "RestApi"),
   ("FoobarResourceGET", "FoobarLambda"),
   ("UiBucketDomainOutput", "UiBucket"),
   ("API Key ID", "Secret")]

/-- The specification's worked example: node `A` with no dependencies,
`B` depending on `A`, `C` depending on `A` and `B`, declared in the
order `[C, B, A]`. -/
def abcDeclaredNodes : List ResourceNode :=
  [⟨"C", .distribution, [("a", .ref "A" "out"), ("b", .ref "B" "out")]⟩,
   ⟨"B", .bucketDeployment, [("a", .ref "A" "out")]⟩,
   ⟨"A", .bucket, []⟩]

/-- C1: the dependency graph induced by the declared topology is acyclic.
For both stack variants, the edge set derived from the declared resource
nodes has no directed cycle, and the source declaration order is itself
a witness: every edge points from a later-declared construct to an
earlier-declared one, so every construct is declared before every
construct that references it.  The edge and id lists are computed from
the embedded constructors for any configuration and stack id. -/
theorem C1_declared_topology_acyclic (sid : String) (p : ServiceProperties) :
    resolveEdges ⟨libStackNodes sid p⟩ = .ok libStackEdges ∧
    resolveEdges ⟨part000Nodes sid p⟩ = .ok part000Edges ∧
    (libStackNodes sid p).map (fun n => n.id) = libDeclIds ∧
    (part000Nodes sid p).map (fun n => n.id) = part000DeclIds ∧
    (∀ f t, (f, t) ∈ libStackEdges →
      idxIn t libDeclIds < idxIn f libDeclIds) ∧
    (∀ f t, (f, t) ∈ part000Edges →
      idxIn t part000DeclIds < idxIn f part000DeclIds) ∧
    Acyclic libStackEdges ∧ Acyclic part000Edges :=
  ⟨rfl, rfl, rfl, rfl,
   edges_rank_of_all (by decide), edges_rank_of_all (by decide),
   noCycle_of_rank (fun s => idxIn s libDeclIds)
     (edges_rank_of_all (by decide)),
   noCycle_of_rank (fun s => idxIn s part000DeclIds)
     (edges_rank_of_all (by decide))⟩

/-- The eight resource kinds claimed by C2 to exhaust the node set. -/
def c2ClaimedKinds : List ResourceKind :=
  [.bucket, .distribution, .certificate, .hostedZone, .lambdaFunction,
   .restApi, .table, .secret]

/-- C2 counterexample: the node set declared by the entry point contains
a node (the origin access identity; likewise the alias record, bucket
deployment, API key, methods and outputs) whose kind is not among the
eight kinds listed by the claim; and the lib stack variant, also cited
by the claim, declares no table node at all. -/
theorem C2_counterexample :
    (∃ n ∈ appNodes ⟨"acc", "reg"⟩, n.kind ∉ c2ClaimedKinds) ∧
    ¬(∃ n ∈ libStackNodes "MonorepoStack" appServiceProperties,
      n.kind = ResourceKind.table) := by
  constructor
  · decide
  · decide

/-- C2 amended: the topology source is a fixed, hand-written collection
of seventeen nodes, identical for every run (it does not depend on the
ambient environment and is not parsed from any file).  It contains
exactly one bucket, one distribution, one certificate, one hosted zone,
two functions, one REST API, one table and one secret — plus a bucket
deployment, an origin access identity, an alias record, an API key, two
API methods and two stack outputs. -/
theorem C2_fixed_node_set (env : StackEnv) :
    (appNodes env).map (fun n => (n.id, n.kind)) =
      [("UiBucket", .bucket), ("UiDeployment", .bucketDeployment),
       ("HostedZone", .hostedZone),
       ("CertificateImportedFromUsEast1", .certificate),
       ("cloudfront-OAI", .originAccessIdentity),
       ("SiteDistribution", .distribution),
       ("SiteAliasRecord", .aliasRecord),
       ("DemoLambda", .lambdaFunction), ("FoobarLambda", .lambdaFunction),
       ("RestApi", .restApi), ("Secret", .secret), ("ApiKey", .apiKey),
       ("DemoResourceGET", .apiMethod), ("FoobarResourceGET", .apiMethod),
       ("MyFirstDynamoDBTable", .table),
       ("UiBucketDomainOutput", .cfnOutput),
       ("API Key ID", .cfnOutput)] ∧
    ((appNodes env).filter (fun n => n.kind == .bucket)).length = 1 ∧
    ((appNodes env).filter (fun n => n.kind == .distribution)).length = 1 ∧
    ((appNodes env).filter (fun n => n.kind == .certificate)).length = 1 ∧
    ((appNodes env).filter (fun n => n.kind == .hostedZone)).length = 1 ∧
    ((appNodes env).filter (fun n => n.kind == .lambdaFunction)).length = 2 ∧
    ((appNodes env).filter (fun n => n.kind == .restApi)).length = 1 ∧
    ((appNodes env).filter (fun n => n.kind == .table)).length = 1 ∧
    ((appNodes env).filter (fun n => n.kind == .secret)).length = 1 ∧
    (appNodes env).length = 17 :=
  ⟨rfl, rfl, rfl, rfl, rfl, rfl, rfl, rfl, rfl, rfl⟩

/-- C3: for every acyclic input graph — node ids plus a derived edge set
over them — the topological sorter returns a linear ordering of exactly
the nodes in which, for every edge `(from, to)`, the dependency `to`
appears strictly before the dependent `from`. -/
theorem C3_toposort_linearizes (ids : List String)
    (edges : List (String × String))
    (hwf : ∀ e ∈ edges, e.1 ∈ ids ∧ e.2 ∈ ids) (hacyc : Acyclic edges) :
    ∃ order, topoSort ids edges = .ok order ∧
      (∀ x, x ∈ order ↔ x ∈ ids) ∧ order.Nodup ∧
      ∀ f t, (f, t) ∈ edges → idxIn t order < idxIn f order := by
  cases hres : topoSort ids edges with
  | error e =>
    rcases topoSort_err (fun e' he' => (hwf e' he').2) hres with ⟨p, _, hcyc⟩
    simp [hacyc p] at hcyc
  | ok order =>
    obtain ⟨hids, hnd, hgood, horig⟩ := topoSort_ok hres
    refine ⟨order, rfl, ?_, hnd, ?_⟩
    · intro x
      constructor
      · intro hx
        rcases horig x hx with hx' | ⟨m, hm⟩
        · exact hx'
        · exact (hwf _ hm).2
      · exact hids x
    · intro f t hft
      exact (hgood f t hft (hids f (hwf _ hft).1)).2

/-- Witness for C3 at the concrete two-node graph where `b` depends on
`a`. -/
theorem C3_witness :
    ∃ order, topoSort ["a", "b"] [("b", "a")] = .ok order ∧
      (∀ x, x ∈ order ↔ x ∈ ["a", "b"]) ∧ order.Nodup ∧
      ∀ f t, (f, t) ∈ [("b", "a")] → idxIn t order < idxIn f order :=
  C3_toposort_linearizes ["a", "b"] [("b", "a")] (by decide)
    (noCycle_of_rank (fun s => idxIn s ["a", "b"])
      (edges_rank_of_all (by decide)))

/-- C4: for every input graph over its node set that contains a directed
cycle, the sorter fails with `CyclicDependencyError` — it does not
return an ordering — and the cycle path carried by the error is a
genuine cycle of the input edge set. -/
theorem C4_cycle_detected (ids : List String)
    (edges : List (String × String)) (c : List String)
    (hwf : ∀ e ∈ edges, e.1 ∈ ids ∧ e.2 ∈ ids)
    (hc : isCycle edges c = true) :
    ∃ p, topoSort ids edges = .error (.cyclicDependency p) ∧
      isCycle edges p = true := by
  cases hres : topoSort ids edges with
  | ok order =>
    obtain ⟨hids, _, hgood, _⟩ := topoSort_ok hres
    have hacyc : Acyclic edges :=
      noCycle_of_rank (fun s => idxIn s order)
        (fun f t hft => (hgood f t hft (hids f (hwf _ hft).1)).2)
    simp [hacyc c] at hc
  | error e =>
    rcases topoSort_err (fun e' he' => (hwf e' he').2) hres with ⟨p, he, hcyc⟩
    exact ⟨p, congrArg Except.error he, hcyc⟩

/-- Witness for C4 at the concrete two-cycle between `a` and `b`. -/
theorem C4_witness :
    ∃ p, topoSort ["a", "b"] [("a", "b"), ("b", "a")] =
        .error (.cyclicDependency p) ∧
      isCycle [("a", "b"), ("b", "a")] p = true :=
  C4_cycle_detected ["a", "b"] [("a", "b"), ("b", "a")] ["a", "b", "a"]
    (by decide) (by decide)

/-- C5: registration is atomic with respect to id collisions.  Adding a
node whose id is already registered fails with `DuplicateIdError` and
returns no modified graph, and every successfully built graph has
pairwise distinct node ids. -/
theorem C5_registration_atomic :
    (∀ (g : DependencyGraph) (n : ResourceNode), n.id ∈ g.ids →
      addNode g n = .error (.duplicateId n.id)) ∧
    (∀ (ns : List ResourceNode) (g : DependencyGraph),
      buildGraph ns = .ok g → g.ids.Nodup) := by
  constructor
  · intro g n h
    rw [addNode, if_pos h]
  · intro ns g h
    exact buildGraphAux_nodup ns ⟨[]⟩ g h (by simp [DependencyGraph.ids])

/-- Witness for C5: a duplicate id is rejected, and a concrete one-node
build yields distinct ids. -/
theorem C5_witness :
    addNode ⟨[⟨"a", .bucket, []⟩]⟩ ⟨"a", .secret, []⟩ =
      .error (.duplicateId "a") ∧
    (DependencyGraph.ids ⟨[⟨"a", .bucket, []⟩]⟩).Nodup :=
  ⟨C5_registration_atomic.1 ⟨[⟨"a", .bucket, []⟩]⟩ ⟨"a", .secret, []⟩
      (by decide),
   C5_registration_atomic.2 [⟨"a", .bucket, []⟩] ⟨[⟨"a", .bucket, []⟩]⟩ rfl⟩

/-- C6 counterexample: declaration-order stability does not hold for all
pairs of independent nodes.  In the acyclic graph with nodes declared
`[X, Y, Z]` and the single edge "X depends on Z", the nodes `Y` and `Z`
have no dependency relationship in either direction, are declared with
`Y` before `Z`, and yet the sorter emits `Z` before `Y` (because the
depth-first visit of `X` pulls `Z` forward). -/
theorem C6_counterexample :
    Acyclic [("X", "Z")] ∧
    topoSort ["X", "Y", "Z"] [("X", "Z")] = .ok ["Z", "X", "Y"] ∧
    ¬Relation.TransGen (fun a b => (a, b) ∈ [("X", "Z")]) "Y" "Z" ∧
    ¬Relation.TransGen (fun a b => (a, b) ∈ [("X", "Z")]) "Z" "Y" ∧
    idxIn "Y" ["X", "Y", "Z"] < idxIn "Z" ["X", "Y", "Z"] ∧
    idxIn "Z" ["Z", "X", "Y"] < idxIn "Y" ["Z", "X", "Y"] := by
  refine ⟨noCycle_of_rank (fun s => idxIn s ["Z", "X", "Y"])
      (edges_rank_of_all (by decide)),
    by decide, ?_, ?_, by decide, by decide⟩
  · intro h
    rcases transGen_head_edge h with ⟨c, hc⟩
    simp at hc
  · intro h
    rcases transGen_head_edge h with ⟨c, hc⟩
    simp at hc

/-- C6 amended: tie-breaking is deterministic and follows declaration
order in the sense the counterexample leaves intact: when the edge set
is empty, the emitted order is exactly the declaration order; and the
specification's worked example — `A` with no dependencies, `B` depending
on `A`, `C` depending on `A` and `B`, declared `[C, B, A]` — yields the
emitted plan order `[A, B, C]`. -/
theorem C6_tie_breaking :
    (∀ ids : List String, ids.Nodup → topoSort ids [] = .ok ids) ∧
    (∀ outs, (buildPlan outs abcDeclaredNodes).map
        (fun ops => ops.map (fun o => o.nodeId)) = .ok ["A", "B", "C"]) :=
  ⟨topoSort_no_edges, fun _ => rfl⟩

/-- Witness for C6 at concrete inputs. -/
theorem C6_witness :
    topoSort ["x", "y"] [] = .ok ["x", "y"] ∧
    (buildPlan (fun _ _ => "") abcDeclaredNodes).map
      (fun ops => ops.map (fun o => o.nodeId)) = .ok ["A", "B", "C"] :=
  ⟨C6_tie_breaking.1 ["x", "y"] (by decide),
   C6_tie_breaking.2 (fun _ _ => "")⟩

/-- C7: a property reference whose target id names no registered node
makes the pipeline fail with `UnresolvedReferenceError` at
edge-resolution time: `resolveEdges` itself returns the error, and the
full pipeline returns that same error, so neither the topological sort
nor any plan emission happens. -/
theorem C7_unresolved_reference (outs : String → String → String)
    (ns : List ResourceNode) (n : ResourceNode) (t : String)
    (hnd : (ns.map (fun x => x.id)).Nodup) (hn : n ∈ ns)
    (ht : t ∈ nodeRefs n) (hmiss : t ∉ ns.map (fun x => x.id)) :
    ∃ s t', resolveEdges ⟨ns⟩ = .error (.unresolvedReference s t') ∧
      buildPlan outs ns = .error (.unresolvedReference s t') := by
  have hids : (⟨ns⟩ : DependencyGraph).ids = ns.map (fun x => x.id) := rfl
  rcases resolveEdgesAux_err (ns.map (fun x => x.id)) hn
      ⟨t, ht, hmiss⟩ with ⟨s, t', herr⟩
  have herr' : resolveEdges ⟨ns⟩ = .error (.unresolvedReference s t') := by
    rw [resolveEdges, hids]
    exact herr
  refine ⟨s, t', herr', ?_⟩
  rw [buildPlan, buildGraph_ok ns hnd, except_bind_ok, herr', except_bind_err]

/-- Witness for C7: a node referencing the unregistered id `ghost`. -/
theorem C7_witness :
    ∃ s t',
      resolveEdges ⟨[⟨"a", .bucket, [("x", .ref "ghost" "o")]⟩]⟩ =
        .error (.unresolvedReference s t') ∧
      buildPlan (fun _ _ => "") [⟨"a", .bucket, [("x", .ref "ghost" "o")]⟩] =
        .error (.unresolvedReference s t') :=
  C7_unresolved_reference (fun _ _ => "")
    [⟨"a", .bucket, [("x", .ref "ghost" "o")]⟩]
    ⟨"a", .bucket, [("x", .ref "ghost" "o")]⟩ "ghost"
    (by decide) (by decide) (by decide) (by decide)

/-- C8: the planning pipeline is a pure, deterministic function of its
input.  Two runs on identical declared node sets produce identical
emitted plans; the entry point's node set does not depend on the ambient
process environment, so runs under different environments still produce
identical plans; and for every environment and output assignment the
emitted plan visits exactly the declared nodes in declaration order. -/
theorem C8_deterministic_pure :
    (∀ (outs : String → String → String) (ns₁ ns₂ : List ResourceNode),
      ns₁ = ns₂ → buildPlan outs ns₁ = buildPlan outs ns₂) ∧
    (∀ (outs : String → String → String) (env₁ env₂ : StackEnv),
      buildPlan outs (appNodes env₁) = buildPlan outs (appNodes env₂)) ∧
    (∀ (outs : String → String → String) (env : StackEnv),
      (buildPlan outs (appNodes env)).map
        (fun ops => ops.map (fun o => o.nodeId)) = .ok part000DeclIds) :=
  ⟨fun _ _ _ h => h ▸ rfl, fun _ _ _ => rfl, fun _ _ => rfl⟩

/-- Witness for C8 at a concrete environment and output assignment. -/
theorem C8_witness :
    buildPlan (fun _ _ => "") (appNodes ⟨"acc", "reg"⟩) =
      buildPlan (fun _ _ => "") (appNodes ⟨"acc", "reg"⟩) :=
  C8_deterministic_pure.1 (fun _ _ => "") (appNodes ⟨"acc", "reg"⟩)
    (appNodes ⟨"acc", "reg"⟩) rfl

/-- C9: if the provisioning backend reports node `B` as failed, then any
node `m` depending directly or transitively on `B` in a valid execution
order is never emitted as a Create operation in the remainder of the
run, and is reported with a `DependencyFailedError`. -/
theorem C9_failure_propagation (edges : List (String × String))
    (bf : String → Bool) (order : List String) (B m : String)
    (hval : ∀ f t, (f, t) ∈ edges → f ∈ order →
      t ∈ order ∧ idxIn t order < idxIn f order)
    (hnd : order.Nodup) (hB : bf B = true)
    (hdep : Relation.TransGen (fun a b => (a, b) ∈ edges) m B)
    (hm : m ∈ order) :
    ExecReport.dependencyFailed m ∈ execute edges bf order ∧
    ExecReport.create m ∉ execute edges bf order := by
  have key : ∀ x, Relation.TransGen (fun a b => (a, b) ∈ edges) x B →
      x ∈ order → ∃ d ∈ deps edges x,
        d ∈ failedAfter edges bf (order.take (idxIn x order)) := by
    intro x hx
    induction hx using Relation.TransGen.head_induction_on with
    | base h =>
      intro hxo
      rcases hval _ B h hxo with ⟨hBo, hlt⟩
      have hBf : B ∈ failedAfter edges bf (order.take (idxIn B order + 1)) :=
        mem_failedAfter_of_bf hB hBo
      rcases take_prefix_of_le order
        (show idxIn B order + 1 ≤ idxIn _ order from hlt) with ⟨q, hq⟩
      refine ⟨B, mem_deps.mpr h, ?_⟩
      rw [hq]
      exact failedAfter_prefix edges bf _ q hBf
    | ih h' htrans ihc =>
      intro hao
      rcases hval _ _ h' hao with ⟨hco, hlt⟩
      have hcf := mem_failedAfter_of_skipped hco (ihc hco)
      rcases take_prefix_of_le order
        (show idxIn _ order + 1 ≤ idxIn _ order from hlt) with ⟨q, hq⟩
      refine ⟨_, mem_deps.mpr h', ?_⟩
      rw [hq]
      exact failedAfter_prefix edges bf _ q hcf
  have hsk := key m hdep hm
  have hsplit : order = order.take (idxIn m order) ++
      m :: order.drop (idxIn m order + 1) := idx_split hm
  have hmp : m ∉ order.take (idxIn m order) ∧
      m ∉ order.drop (idxIn m order + 1) := by
    have hnd' := hnd
    rw [hsplit] at hnd'
    have h2 := (List.nodup_cons.mp (List.nodup_middle.mp hnd')).1
    exact ⟨fun hc => h2 (List.mem_append_left _ hc),
           fun hc => h2 (List.mem_append_right _ hc)⟩
  have hsk' : ∃ d ∈ deps edges m,
      d ∈ (execRun edges bf [] (order.take (idxIn m order))).1 := by
    simpa [failedAfter] using hsk
  have hexec : execute edges bf order =
      (execRun edges bf [] (order.take (idxIn m order))).2 ++
        ExecReport.dependencyFailed m ::
          (execRun edges bf
            (m :: (execRun edges bf [] (order.take (idxIn m order))).1)
            (order.drop (idxIn m order + 1))).2 := by
    rw [execute]
    conv_lhs => rw [hsplit]
    rw [execRun_append]
    show (execRun edges bf [] (order.take (idxIn m order))).2 ++
      (execRun edges bf
        (execRun edges bf [] (order.take (idxIn m order))).1
        (m :: order.drop (idxIn m order + 1))).2 = _
    rw [execRun, if_pos hsk']
  constructor
  · rw [hexec]
    exact List.mem_append_right _ (List.mem_cons_self _ _)
  · rw [hexec]
    intro hc
    rcases List.mem_append.mp hc with hc | hc
    · exact hmp.1 (execRun_report_mem edges bf _ [] _ hc)
    · rcases List.mem_cons.mp hc with hc | hc
      · simp at hc
      · exact hmp.2 (execRun_report_mem edges bf _ _ _ hc)

/-- Witness for C9: order `[A, B, C]` with `B` depending on `A` and `C`
depending on `B`; the backend fails `B`, so `C` is skipped with a
`DependencyFailedError` and no Create operation. -/
theorem C9_witness :
    ExecReport.dependencyFailed "C" ∈
      execute [("B", "A"), ("C", "B")] (fun s => s == "B") ["A", "B", "C"] ∧
    ExecReport.create "C" ∉
      execute [("B", "A"), ("C", "B")] (fun s => s == "B") ["A", "B", "C"] :=
  C9_failure_propagation [("B", "A"), ("C", "B")] (fun s => s == "B")
    ["A", "B", "C"] "B" "C"
    (valid_order_of_all (by decide)) (by decide) (by decide)
    (Relation.TransGen.single (by decide)) (by decide)

/-- C10: in the part_000 variant, the plaintext of the secret's
`api_key` field flows verbatim to two sinks.  For every backend output
assignment, the emitted plan resolves the `value` property of the
`web-app-key` API key and the `value` property of the `API Key ID`
stack output to exactly the same string — the secret's `api_key` output
— so the secret value appears unredacted in the stack's outputs. -/
theorem C10_secret_value_flows (outs : String → String → String)
    (env : StackEnv) :
    ((buildPlan outs (appNodes env)).map (fun plan =>
        (plan.find? (fun o => o.nodeId == "ApiKey")).map
          (fun o => o.resolvedProperties)) =
      .ok (some [("apiKeyName", .str "web-app-key"),
                 ("value", .str (outs "Secret" "api_key")),
                 ("api", .str (outs "RestApi" "restApiId"))])) ∧
    ((buildPlan outs (appNodes env)).map (fun plan =>
        (plan.find? (fun o => o.nodeId == "API Key ID")).map
          (fun o => o.resolvedProperties)) =
      .ok (some [("value", .str (outs "Secret" "api_key")),
                 ("description",
                  .str "The api key for getting access")])) :=
  ⟨rfl, rfl⟩
